import Mathlib

/-!
Verification development for the rstark repository (a FRI / STARK core):
shallow embedding of src/field.rs, src/tree.rs, src/polynomial.rs and the
folding step of src/fri.rs, together with theorems settling the frozen
claims about the specification.

Machine integers (num_bigint BigInt / BigUint, u32) are modelled as Int and
Nat.  The field modulus is carried as a natural number p and all field
values as integers, matching the signed BigInt representation used by the
source.  Rust BigInt division and remainder on the nonnegative operands
that occur in the modelled code agree with Lean integer division and
emod, which is what the definitions below use.
-/

/-! ## Field (src/field.rs) -/

/-- Embedding of Field::modd.  Note the faithful reproduction of the source
guard: a nonnegative argument is reduced only when it is strictly greater
than p, so modd p p = p (the value p itself is returned unreduced). -/
def modd (p : ℕ) (v : ℤ) : ℤ :=
  if v < 0 then v % (p : ℤ)
  else if (p : ℤ) < v then v % (p : ℤ)
  else v

/-- Embedding of Field::add. -/
def fadd (p : ℕ) (a b : ℤ) : ℤ := modd p (a + b)

/-- Embedding of Field::mul. -/
def fmul (p : ℕ) (a b : ℤ) : ℤ := modd p (a * b)

/-- Embedding of Field::sub. -/
def fsub (p : ℕ) (a b : ℤ) : ℤ := modd p (a - b)

/-- Modelled from the spec: Field::neg is called by src/polynomial.rs but the
method body is not among the source files; per the spec (section 4.1) it
returns the canonical residue of the negation. -/
def fneg (p : ℕ) (a : ℤ) : ℤ := modd p (-a)

/-- Embedding of Field::exp: modd(v).modpow(e, p).  BigInt modpow with a
nonnegative exponent and positive modulus returns base^e reduced mod p. -/
def fexp (p : ℕ) (v : ℤ) (e : ℕ) : ℤ := (modd p v) ^ e % (p : ℤ)

/-- One pass of the extended-Euclid loop of Field::inv, recursing on explicit
fuel.  Source loop body: q = val / f; f, val = val % f, f; y, x = x - q*y, y.
All values reached from a valid call are nonnegative, where Rust BigInt
truncated division and remainder agree with Lean integer division. -/
def invLoop : ℕ → ℤ → ℤ → ℤ → ℤ → ℤ
  | 0, _, _, x, _ => x
  | fuel + 1, val, f, x, y =>
      if 1 < val then invLoop fuel f (val % f) y (x - val / f * y) else x

/-- Embedding of Field::inv.  The source panics when the reduced argument is
zero; that branch is modelled by the junk value 0 (no claim evaluates it).
The loop runs at most p iterations (its second variable strictly decreases
from p), so fuel p + 1 is enough for every terminating source run. -/
def finv (p : ℕ) (v : ℤ) : ℤ :=
  let val := modd p v
  if val = 0 then 0 else modd p (invLoop (p + 1) val (p : ℤ) 1 0)

/-! ### Arithmetic facts about the embedded field operations -/

lemma modd_emod (p : ℕ) (v : ℤ) : modd p v % (p : ℤ) = v % (p : ℤ) := by
  unfold modd
  split_ifs with h1 h2
  · exact Int.emod_emod_of_dvd v dvd_rfl
  · exact Int.emod_emod_of_dvd v dvd_rfl
  · rfl

lemma modd_modEq (p : ℕ) (v : ℤ) : modd p v ≡ v [ZMOD (p : ℤ)] := modd_emod p v

lemma modd_nonneg (p : ℕ) (hp : 0 < p) (v : ℤ) : 0 ≤ modd p v := by
  unfold modd
  split_ifs with h1 h2
  · exact Int.emod_nonneg v (by exact_mod_cast hp.ne')
  · exact Int.emod_nonneg v (by exact_mod_cast hp.ne')
  · omega

lemma modd_le (p : ℕ) (hp : 0 < p) (v : ℤ) : modd p v ≤ (p : ℤ) := by
  unfold modd
  split_ifs with h1 h2
  · have := Int.emod_lt_of_pos v (b := (p : ℤ)) (by exact_mod_cast hp)
    omega
  · have := Int.emod_lt_of_pos v (b := (p : ℤ)) (by exact_mod_cast hp)
    omega
  · omega

lemma modd_id (p : ℕ) (v : ℤ) (h0 : 0 ≤ v) (h1 : v ≤ (p : ℤ)) : modd p v = v := by
  unfold modd
  split_ifs with ha hb
  · omega
  · omega
  · rfl

lemma intCast_emod_zmod (p : ℕ) (a : ℤ) : ((a % (p : ℤ) : ℤ) : ZMod p) = (a : ZMod p) := by
  have h : a % (p : ℤ) ≡ a [ZMOD (p : ℤ)] := Int.emod_emod_of_dvd a dvd_rfl
  exact (ZMod.intCast_eq_intCast_iff _ _ _).mpr h

lemma modd_cast (p : ℕ) (v : ℤ) : ((modd p v : ℤ) : ZMod p) = (v : ZMod p) :=
  (ZMod.intCast_eq_intCast_iff _ _ _).mpr (modd_modEq p v)

lemma fadd_cast (p : ℕ) (a b : ℤ) :
    ((fadd p a b : ℤ) : ZMod p) = (a : ZMod p) + (b : ZMod p) := by
  rw [fadd, modd_cast]; push_cast; ring

lemma fmul_cast (p : ℕ) (a b : ℤ) :
    ((fmul p a b : ℤ) : ZMod p) = (a : ZMod p) * (b : ZMod p) := by
  rw [fmul, modd_cast]; push_cast; ring

lemma fsub_cast (p : ℕ) (a b : ℤ) :
    ((fsub p a b : ℤ) : ZMod p) = (a : ZMod p) - (b : ZMod p) := by
  rw [fsub, modd_cast]; push_cast; ring

lemma fneg_cast (p : ℕ) (a : ℤ) : ((fneg p a : ℤ) : ZMod p) = -(a : ZMod p) := by
  rw [fneg, modd_cast]; push_cast; ring

lemma fexp_cast (p : ℕ) (v : ℤ) (e : ℕ) :
    ((fexp p v e : ℤ) : ZMod p) = (v : ZMod p) ^ e := by
  rw [fexp, intCast_emod_zmod]; push_cast [modd_cast]; ring

/-- Invariant proof for the extended-Euclid loop: if x and y track val and f
as multiples of v modulo p and the loop arguments are coprime naturals, the
loop returns a multiplicative inverse of v. -/
lemma invLoop_mul (p : ℕ) (v : ℤ) :
    ∀ (fuel a b : ℕ) (x y : ℤ), 0 < a → Nat.gcd a b = 1 → b < fuel →
      x * v ≡ (a : ℤ) [ZMOD (p : ℤ)] → y * v ≡ (b : ℤ) [ZMOD (p : ℤ)] →
      invLoop fuel (a : ℤ) (b : ℤ) x y * v ≡ 1 [ZMOD (p : ℤ)] := by
  intro fuel
  induction fuel with
  | zero => intro a b x y _ _ hb _ _; omega
  | succ fuel ih =>
    intro a b x y ha hg hb hx hy
    by_cases h1 : 1 < a
    · have hb0 : 0 < b := by
        rcases Nat.eq_zero_or_pos b with h | h
        · subst h; simp [Nat.gcd_zero_right] at hg; omega
        · exact h
      have hcast1 : (1 : ℤ) < (a : ℤ) := by exact_mod_cast h1
      have hmod : ((a : ℤ) % (b : ℤ)) = ((a % b : ℕ) : ℤ) := by
        push_cast; rfl
      have hdiv : ((a : ℤ) / (b : ℤ)) = ((a / b : ℕ) : ℤ) := by
        push_cast; rfl
      have hgcd2 : Nat.gcd b (a % b) = 1 := by
        rw [Nat.gcd_comm, ← Nat.gcd_rec, Nat.gcd_comm]; exact hg
      have hlt2 : a % b < fuel := lt_of_lt_of_le (Nat.mod_lt a hb0) (by omega)
      have hsplit : ((a % b : ℕ) : ℤ) = (a : ℤ) - ((a / b : ℕ) : ℤ) * (b : ℤ) := by
        have h2 : ((b : ℤ)) * ((a / b : ℕ) : ℤ) + ((a % b : ℕ) : ℤ) = (a : ℤ) := by
          exact_mod_cast Nat.div_add_mod a b
        linarith
      have hy2 : (x - (a : ℤ) / (b : ℤ) * y) * v ≡ ((a % b : ℕ) : ℤ) [ZMOD (p : ℤ)] := by
        rw [hdiv, hsplit]
        have hcomb := hx.sub (hy.mul_left ((a / b : ℕ) : ℤ))
        calc (x - ((a / b : ℕ) : ℤ) * y) * v
            = x * v - ((a / b : ℕ) : ℤ) * (y * v) := by ring
          _ ≡ (a : ℤ) - ((a / b : ℕ) : ℤ) * (b : ℤ) [ZMOD (p : ℤ)] := hcomb
      simp only [invLoop, if_pos hcast1]
      rw [hmod]
      exact ih b (a % b) y (x - (a : ℤ) / (b : ℤ) * y) hb0 hgcd2 hlt2 hy hy2
    · have ha1 : a = 1 := by omega
      subst ha1
      simp only [invLoop, Nat.cast_one, lt_self_iff_false, if_false]
      simpa using hx

/-- Field::inv returns a multiplicative inverse modulo a prime p whenever the
argument is not divisible by p. -/
lemma finv_mul_self (p : ℕ) (hp : p.Prime) (v : ℤ) (hv : ¬ (p : ℤ) ∣ v) :
    finv p v * v ≡ 1 [ZMOD (p : ℤ)] := by
  have hppos : 0 < p := hp.pos
  have hvmod : v % (p : ℤ) ≠ 0 := fun h => hv (Int.dvd_of_emod_eq_zero h)
  have hne : modd p v ≠ 0 := by
    intro h
    have := modd_emod p v
    rw [h] at this
    simp at this
    exact hvmod this.symm
  have hnep : modd p v ≠ (p : ℤ) := by
    intro h
    have h2 := modd_emod p v
    rw [h] at h2
    simp at h2
    exact hvmod h2.symm
  have h0 : 0 ≤ modd p v := modd_nonneg p hppos v
  have hle : modd p v ≤ (p : ℤ) := modd_le p hppos v
  set a : ℕ := (modd p v).toNat with ha
  have haeq : (a : ℤ) = modd p v := Int.toNat_of_nonneg h0
  have ha0 : 0 < a := by omega
  have hap : a < p := by omega
  have hgcd : Nat.gcd a p = 1 := by
    have hnd : ¬ p ∣ a := fun h => absurd (Nat.le_of_dvd ha0 h) (by omega)
    exact Nat.Coprime.gcd_eq_one (Nat.Coprime.symm ((Nat.Prime.coprime_iff_not_dvd hp).mpr hnd))
  have hx : (1 : ℤ) * v ≡ (a : ℤ) [ZMOD (p : ℤ)] := by
    rw [one_mul, haeq]
    exact (modd_modEq p v).symm
  have hy : (0 : ℤ) * v ≡ ((p : ℕ) : ℤ) [ZMOD (p : ℤ)] := by
    rw [zero_mul]
    unfold Int.ModEq
    simp
  have hloop := invLoop_mul p v (p + 1) a p 1 0 ha0 hgcd (by omega) hx hy
  rw [haeq] at hloop
  have hfin : finv p v = modd p (invLoop (p + 1) (modd p v) (p : ℤ) 1 0) := by
    rw [finv]; simp [hne]
  rw [hfin]
  calc modd p (invLoop (p + 1) (modd p v) (p : ℤ) 1 0) * v
      ≡ invLoop (p + 1) (modd p v) (p : ℤ) 1 0 * v [ZMOD (p : ℤ)] :=
        (modd_modEq p _).mul_right v
    _ ≡ 1 [ZMOD (p : ℤ)] := hloop

lemma finv_nonneg (p : ℕ) (hp : 0 < p) (v : ℤ) : 0 ≤ finv p v := by
  rw [finv]
  split_ifs with h
  · omega
  · exact modd_nonneg p hp _

lemma finv_lt (p : ℕ) (hp : p.Prime) (v : ℤ) (hv : ¬ (p : ℤ) ∣ v) :
    finv p v < (p : ℤ) := by
  have h2 : (2 : ℕ) ≤ p := hp.two_le
  have hle : finv p v ≤ (p : ℤ) := by
    rw [finv]
    split_ifs with h
    · omega
    · exact modd_le p hp.pos _
  rcases lt_or_eq_of_le hle with h | h
  · exact h
  · exfalso
    have hmul := finv_mul_self p hp v hv
    rw [h] at hmul
    unfold Int.ModEq at hmul
    rw [Int.mul_emod_right] at hmul
    rw [Int.emod_eq_of_lt (by omega) (by exact_mod_cast h2)] at hmul
    omega

lemma finv_cast (p : ℕ) (hp : p.Prime) (v : ℤ) (hv : ¬ (p : ℤ) ∣ v) :
    ((finv p v : ℤ) : ZMod p) = (v : ZMod p)⁻¹ := by
  have h := (ZMod.intCast_eq_intCast_iff _ _ _).mpr (finv_mul_self p hp v hv)
  push_cast at h
  haveI : Fact p.Prime := ⟨hp⟩
  exact eq_inv_of_mul_eq_one_left h

/-- Products of canonical residues stay canonical when p is prime: the modd
quirk value p cannot be hit because p cannot factor as a product of two
smaller naturals. -/
lemma fmul_lt (p : ℕ) (hp : p.Prime) (a b : ℤ)
    (ha : 0 ≤ a ∧ a < p) (hb : 0 ≤ b ∧ b < p) :
    0 ≤ fmul p a b ∧ fmul p a b < (p : ℤ) := by
  have hppos : 0 < p := hp.pos
  refine ⟨modd_nonneg p hppos _, ?_⟩
  have hle : fmul p a b ≤ (p : ℤ) := modd_le p hppos _
  rcases lt_or_eq_of_le hle with h | h
  · exact h
  · exfalso
    have hprod : a * b % (p : ℤ) = 0 := by
      have := modd_emod p (a * b)
      rw [fmul] at h
      rw [h] at this
      simpa using this.symm
    have hdvd : (p : ℤ) ∣ a * b := Int.dvd_of_emod_eq_zero hprod
    have hpi : Prime ((p : ℕ) : ℤ) := Int.prime_iff_natAbs_prime.mpr (by simpa using hp)
    rcases hpi.dvd_mul.mp hdvd with hda | hdb
    · have ha0 : a = 0 := by
        by_contra hne
        have hpos : 0 < a := lt_of_le_of_ne ha.1 (Ne.symm hne)
        have := Int.le_of_dvd hpos hda
        omega
      subst ha0
      have hz : fmul p 0 b = 0 := by simp [fmul, modd]
      omega
    · have hb0 : b = 0 := by
        by_contra hne
        have hpos : 0 < b := lt_of_le_of_ne hb.1 (Ne.symm hne)
        have := Int.le_of_dvd hpos hdb
        omega
      subst hb0
      have hz : fmul p a 0 = 0 := by simp [fmul, modd]
      omega

lemma fsub_lt (p : ℕ) (hp : 0 < p) (a b : ℤ)
    (ha : 0 ≤ a ∧ a < p) (hb : 0 ≤ b ∧ b ≤ p) :
    0 ≤ fsub p a b ∧ fsub p a b < (p : ℤ) := by
  constructor
  · exact modd_nonneg p hp _
  · rw [fsub]
    unfold modd
    split_ifs with h1 h2
    · exact Int.emod_lt_of_pos _ (by exact_mod_cast hp)
    · omega
    · omega

lemma fneg_lt (p : ℕ) (hp : 0 < p) (b : ℤ) (hb : 0 ≤ b ∧ b ≤ p) :
    0 ≤ fneg p b ∧ fneg p b < (p : ℤ) := by
  constructor
  · exact modd_nonneg p hp _
  · rw [fneg]
    unfold modd
    split_ifs with h1 h2
    · exact Int.emod_lt_of_pos _ (by exact_mod_cast hp)
    · omega
    · omega

lemma canonical_eq_of_modEq (p : ℕ) (a b : ℤ) (h : a ≡ b [ZMOD (p : ℤ)])
    (ha : 0 ≤ a ∧ a < p) (hb : 0 ≤ b ∧ b < p) : a = b := by
  unfold Int.ModEq at h
  rw [Int.emod_eq_of_lt ha.1 ha.2, Int.emod_eq_of_lt hb.1 hb.2] at h
  exact h

/-- Claim C4: the field operations do not always return canonical residues in
the interval from 0 to p exclusive.  Field::modd reduces a nonnegative value
only when it strictly exceeds p, so add(1, 100) over p = 101 returns 101
itself, violating the claimed upper bound. -/
theorem field_add_not_canonical :
    fadd 101 1 100 = 101 ∧ ¬ fadd 101 1 100 < 101 := by
  constructor
  · decide
  · decide

/-! ## FRI round count (src/fri.rs, Fri::new) -/

/-- Loop body of the round-count computation in Fri::new, with explicit fuel
(the codeword length strictly decreases, so fuel equal to the starting
length always suffices).  The loop keeps halving while the current length
exceeds the expansion factor and four times the colinearity test count. -/
def roundCountAux : ℕ → ℕ → ℕ → ℕ → ℕ
  | 0, _, _, _ => 0
  | fuel + 1, len, ef, s =>
      if ef < len ∧ 4 * s < len then roundCountAux fuel (len / 2) ef s + 1 else 0

/-- Embedding of the round_count computed by Fri::new from domain_len N,
expansion_factor ef and colinearity_test_count s. -/
def roundCount (N ef s : ℕ) : ℕ := roundCountAux N N ef s

lemma roundCountAux_spec :
    ∀ (fuel len ef s : ℕ), len ≤ fuel →
      (∀ k, k < roundCountAux fuel len ef s →
          ef < len / 2 ^ k ∧ 4 * s < len / 2 ^ k) ∧
        ¬ (ef < len / 2 ^ roundCountAux fuel len ef s ∧
            4 * s < len / 2 ^ roundCountAux fuel len ef s) := by
  intro fuel
  induction fuel with
  | zero =>
    intro len ef s hlen
    have hlen0 : len = 0 := by omega
    subst hlen0
    constructor
    · intro k hk
      simp [roundCountAux] at hk
    · simp [roundCountAux]
  | succ fuel ih =>
    intro len ef s hlen
    by_cases hc : ef < len ∧ 4 * s < len
    · have hlen2 : len / 2 ≤ fuel := by omega
      obtain ⟨ih1, ih2⟩ := ih (len / 2) ef s hlen2
      have hdiv : ∀ k : ℕ, len / 2 / 2 ^ k = len / 2 ^ (k + 1) := by
        intro k
        rw [Nat.div_div_eq_div_mul, pow_succ, mul_comm]
      constructor
      · intro k hk
        simp only [roundCountAux, if_pos hc] at hk
        cases k with
        | zero => simpa using hc
        | succ j =>
          have hj : j < roundCountAux fuel (len / 2) ef s := by omega
          have := ih1 j hj
          rwa [hdiv j] at this
      · simp only [roundCountAux, if_pos hc]
        rw [← hdiv]
        exact ih2
    · constructor
      · intro k hk
        simp [roundCountAux, if_neg hc] at hk
      · simp only [roundCountAux, if_neg hc, pow_zero, Nat.div_one]
        exact hc

/-- Claim C2 (counterexample): with the test parameters N = 8192, ef = 2,
s = 10 the code computes round_count 8, but r = 8 does not satisfy the
claimed defining property (4 s is not below N divided by 2 to the 8) while
r = 7 does; hence round_count is not the largest r with the property. -/
theorem round_count_not_largest :
    roundCount 8192 2 10 = 8 ∧
      ¬ (2 < 8192 / 2 ^ 8 ∧ 4 * 10 < 8192 / 2 ^ 8) ∧
      (2 < 8192 / 2 ^ 7 ∧ 4 * 10 < 8192 / 2 ^ 7) := by
  refine ⟨by decide, by decide, by decide⟩

/-- Claim C2 (amended): the round_count computed by Fri::new is the least r
at which halving fails, i.e. the halving condition (N / 2^k exceeds both the
expansion factor and four times the test count) holds for every k below
round_count and fails at round_count itself. -/
theorem round_count_least_failing (N ef s : ℕ) :
    (∀ k, k < roundCount N ef s → ef < N / 2 ^ k ∧ 4 * s < N / 2 ^ k) ∧
      ¬ (ef < N / 2 ^ roundCount N ef s ∧ 4 * s < N / 2 ^ roundCount N ef s) :=
  roundCountAux_spec N N ef s le_rfl

/-! ## Merkle tree (src/tree.rs)

The tree is parameterized by the pair hash, which is blake3 in the source
and left opaque here: every tree claim is settled uniformly in the hash. -/

/-- Number of hashing levels of Tree::build, computed as the exact ceiling
of the base-two logarithm of the leaf count: the tree height the spec
prescribes.  The source computes it as (len as f32).log2().ceil() as usize,
which agrees with the exact ceiling at the leaf counts the tree theorems
below quantify over (small explicit lists and counts of the form 2 ^ k or
2 ^ k - 1, where the f32 value is exact at every k) but returns fewer
levels at large counts: at 2 ^ 24 + 1 leaves the usize-to-f32 cast alone
rounds to 2 ^ 24, giving 24 levels where the exact ceiling is 25, and the
Merkle round-trip of the source breaks there (the code bug recorded for
claim C5).  Structural recursion on fuel; the argument at least halves
each step, so fuel n suffices for input n. -/
def levelCountAux : ℕ → ℕ → ℕ
  | 0, _ => 0
  | fuel + 1, n => if n ≤ 1 then 0 else levelCountAux fuel ((n + 1) / 2) + 1

/-- Ceiling base-two logarithm used as the level count of Tree::build. -/
def levelCount (n : ℕ) : ℕ := levelCountAux n n

lemma levelCountAux_spec :
    ∀ (fuel n : ℕ), n ≤ fuel → 0 < n →
      n ≤ 2 ^ levelCountAux fuel n ∧ 2 ^ levelCountAux fuel n < 2 * n := by
  intro fuel
  induction fuel with
  | zero => intro n h1 h2; omega
  | succ fuel ih =>
    intro n hle hpos
    by_cases hn : n ≤ 1
    · have : n = 1 := by omega
      subst this
      simp [levelCountAux]
    · have hm : (n + 1) / 2 ≤ fuel := by omega
      have hmpos : 0 < (n + 1) / 2 := by omega
      obtain ⟨ihl, ihr⟩ := ih ((n + 1) / 2) hm hmpos
      simp only [levelCountAux, if_neg hn]
      set L := levelCountAux fuel ((n + 1) / 2) with hL
      have hstrict : 2 ^ L < n := by
        rcases Nat.even_or_odd n with he | ho
        · obtain ⟨t, ht⟩ := he
          omega
        · obtain ⟨t, ht⟩ := ho
          have heq : (n + 1) / 2 = t + 1 := by omega
          rw [heq] at ihr
          have hne : 2 ^ L ≠ n := by
            intro hcontra
            rcases Nat.eq_zero_or_pos L with h0 | h0
            · rw [h0] at hcontra; simp at hcontra; omega
            · have hdvd : 2 ∣ 2 ^ L := dvd_pow_self 2 (by omega)
              obtain ⟨u, hu⟩ := hdvd
              omega
          omega
      constructor
      · rw [pow_succ]
        omega
      · rw [pow_succ]
        omega

lemma levelCount_spec (n : ℕ) (h : 0 < n) :
    n ≤ 2 ^ levelCount n ∧ 2 ^ levelCount n < 2 * n :=
  levelCountAux_spec n n le_rfl h

lemma levelCount_pow (k : ℕ) : levelCount (2 ^ k) = k := by
  have hpos : 0 < 2 ^ k := Nat.pos_pow_of_pos k (by omega)
  obtain ⟨h1, h2⟩ := levelCount_spec (2 ^ k) hpos
  set L := levelCount (2 ^ k)
  have hup : 2 ^ L < 2 ^ (k + 1) := by rw [pow_succ]; omega
  have hkL : k ≤ L := (Nat.pow_le_pow_iff_right (by omega)).mp h1
  have hLk : L < k + 1 := (Nat.pow_lt_pow_iff_right (by omega)).mp hup
  omega

lemma levelCount_pow_sub_one (k : ℕ) (hk : 2 ≤ k) : levelCount (2 ^ k - 1) = k := by
  have h2k : 4 ≤ 2 ^ k := by
    calc (4 : ℕ) = 2 ^ 2 := by norm_num
    _ ≤ 2 ^ k := Nat.pow_le_pow_right (by omega) hk
  have hpos : 0 < 2 ^ k - 1 := by omega
  obtain ⟨h1, h2⟩ := levelCount_spec (2 ^ k - 1) hpos
  set L := levelCount (2 ^ k - 1)
  have hub : 2 ^ L < 2 ^ (k + 1) := by
    have : 2 * (2 ^ k - 1) < 2 ^ (k + 1) := by rw [pow_succ]; omega
    omega
  have hLk : L < k + 1 := (Nat.pow_lt_pow_iff_right (by omega)).mp hub
  have hkL : k ≤ L := by
    by_contra hcon
    have hLle : L ≤ k - 1 := by omega
    have : 2 ^ L ≤ 2 ^ (k - 1) := Nat.pow_le_pow_right (by omega) hLle
    have hhalf : 2 ^ (k - 1) * 2 = 2 ^ k := by
      rw [← pow_succ]
      congr 1
      omega
    omega
  omega

/-- The in-place padding step of Tree::build: push one zero element onto an
odd-length level before hashing it. -/
def padEven (l : List ℕ) : List ℕ := if l.length % 2 = 1 then l ++ [0] else l

/-- One hashing level of Tree::build: hash consecutive pairs.  build applies
this only to already padded (even-length) levels; on an odd-length list the
source would read past the end and panic, which the final singleton case
here never reaches in any modelled run. -/
def hashLevel (h : ℕ → ℕ → ℕ) : List ℕ → List ℕ
  | a :: b :: rest => h a b :: hashLevel h rest
  | _ => []

/-- Level recursion of Tree::build combined with the root extraction of
Tree::commit: pad the current level, hash it, recurse for the computed
number of levels, finally take the head of the last level.  An empty last
level (only possible for an empty leaves vector, where the source panics)
is modelled by the default value 0. -/
def commitAux (h : ℕ → ℕ → ℕ) : ℕ → List ℕ → ℕ
  | 0, cur => cur.getD 0 0
  | k + 1, cur => commitAux h k (hashLevel h (padEven cur))

/-- Embedding of Tree::commit. -/
def commitT (h : ℕ → ℕ → ℕ) (leaves : List ℕ) : ℕ :=
  commitAux h (levelCount leaves.length) leaves

/-- Loop of Tree::open over the tree levels below the root.  At each level
the padded level is read at the index and at its sibling (a failing read is
a panic in the source, modelled by none); the two children are pushed left
child first, and the index is halved. -/
def openAux (h : ℕ → ℕ → ℕ) : ℕ → ℕ → List ℕ → Option (List ℕ × ℕ)
  | 0, _, cur => (cur.get? 0).map (fun r => ([], r))
  | k + 1, index, cur =>
      let padded := padEven cur
      let sib := if index % 2 = 0 then index + 1 else index - 1
      match padded.get? index, padded.get? sib with
      | some node, some sibling =>
          (openAux h k (index / 2) (hashLevel h padded)).map
            (fun pr =>
              ((if index % 2 = 0 then node :: sibling :: pr.1
                else sibling :: node :: pr.1), pr.2))
      | _, _ => none

/-- Embedding of Tree::open.  The source rejects (panics on) an index only
when it strictly exceeds the number of leaves. -/
def openT (h : ℕ → ℕ → ℕ) (index : ℕ) (leaves : List ℕ) : Option (List ℕ × ℕ) :=
  if leaves.length < index then none
  else openAux h (levelCount leaves.length) index leaves

/-- Chunk walk of Tree::verify: consume the path two entries at a time;
check that the child at position index mod 2 equals the running value,
rehash the pair, halve the index.  none models a panic (an intermediate
mismatch, or a trailing odd chunk which the source would index past). -/
def verifyAux (h : ℕ → ℕ → ℕ) : List ℕ → ℕ → ℕ → Option ℕ
  | [], _, cal => some cal
  | a :: b :: rest, index, cal =>
      if (if index % 2 = 0 then a else b) = cal then
        verifyAux h rest (index / 2) (h a b)
      else none
  | _ :: [], _, _ => none

/-- Embedding of Tree::verify: true exactly when the walk succeeds and the
recomputed root equals the given root (the two source panics are modelled
by false). -/
def verifyT (h : ℕ → ℕ → ℕ) (root index : ℕ) (path : List ℕ) (leaf : ℕ) : Bool :=
  match verifyAux h path index leaf with
  | some cal => cal == root
  | none => false

/-- A concrete pair hash used to instantiate the hash-generic tree theorems
on explicit inputs. -/
def hDemo (a b : ℕ) : ℕ := a + 2 * b + 1

/-! ### Structural facts about the tree embedding -/

lemma padEven_of_even (l : List ℕ) (h : l.length % 2 = 0) : padEven l = l := by
  unfold padEven
  rw [if_neg (by omega)]

lemma padEven_of_odd (l : List ℕ) (h : l.length % 2 = 1) : padEven l = l ++ [0] := by
  unfold padEven
  rw [if_pos h]

lemma padEven_length_even (l : List ℕ) : (padEven l).length % 2 = 0 := by
  unfold padEven
  split_ifs with h
  · simp; omega
  · omega

lemma le_padEven_length (l : List ℕ) : l.length ≤ (padEven l).length := by
  unfold padEven
  split_ifs with h
  · simp
  · exact le_refl _

lemma padEven_getD_lt (l : List ℕ) (j : ℕ) (hj : j < l.length) :
    (padEven l).getD j 0 = l.getD j 0 := by
  unfold padEven
  split_ifs with h
  · exact List.getD_append l [0] 0 j hj
  · rfl

lemma get?_eq_some_getD {α : Type} :
    ∀ (l : List α) (j : ℕ) (d : α), j < l.length → l.get? j = some (l.getD j d)
  | a :: t, 0, d, _ => rfl
  | a :: t, j + 1, d, hj =>
      get?_eq_some_getD t j d (by simpa using hj)

lemma hashLevel_length (h : ℕ → ℕ → ℕ) :
    ∀ l : List ℕ, (hashLevel h l).length = l.length / 2
  | [] => rfl
  | [a] => by simp [hashLevel]
  | a :: b :: rest => by
      simp only [hashLevel, List.length_cons]
      rw [hashLevel_length h rest]
      omega

lemma hashLevel_getD (h : ℕ → ℕ → ℕ) :
    ∀ (l : List ℕ) (j : ℕ), 2 * j + 1 < l.length →
      (hashLevel h l).getD j 0 = h (l.getD (2 * j) 0) (l.getD (2 * j + 1) 0)
  | a :: b :: rest, 0, _ => rfl
  | a :: b :: rest, j + 1, hj => by
      have hrec := hashLevel_getD h rest j (by
        simp only [List.length_cons] at hj
        omega)
      have e1 : (a :: b :: rest).getD (2 * (j + 1)) 0 = rest.getD (2 * j) 0 := by
        have h' : 2 * (j + 1) = 2 * j + 1 + 1 := by omega
        rw [h', List.getD_cons_succ, List.getD_cons_succ]
      have e2 : (a :: b :: rest).getD (2 * (j + 1) + 1) 0 = rest.getD (2 * j + 1) 0 := by
        have h' : 2 * (j + 1) + 1 = 2 * j + 1 + 1 + 1 := by omega
        rw [h', List.getD_cons_succ, List.getD_cons_succ]
      calc (hashLevel h (a :: b :: rest)).getD (j + 1) 0
          = (hashLevel h rest).getD j 0 := by
            simp only [hashLevel, List.getD_cons_succ]
        _ = h (rest.getD (2 * j) 0) (rest.getD (2 * j + 1) 0) := hrec
        _ = h ((a :: b :: rest).getD (2 * (j + 1)) 0)
              ((a :: b :: rest).getD (2 * (j + 1) + 1) 0) := by rw [e1, e2]
  | [], j, hj => by simp at hj
  | [a], j, hj => by
      simp only [List.length_cons, List.length_nil] at hj
      omega

/-- Core Merkle round-trip induction: walking the tree from any level, the
path emitted by the open loop verifies against the returned root, with the
leaf read from the padded current level (or the level head when no hashing
level remains). -/
lemma open_verify_aux (h : ℕ → ℕ → ℕ) :
    ∀ (k : ℕ) (cur : List ℕ) (index : ℕ), 0 < cur.length → index < 2 ^ k →
      (k = 0 ∨ index < (padEven cur).length) →
      ∃ path root, openAux h k index cur = some (path, root) ∧
        verifyAux h path index
          (if k = 0 then cur.getD 0 0 else (padEven cur).getD index 0) = some root := by
  intro k
  induction k with
  | zero =>
    intro cur index hpos hidx _
    have hidx0 : index = 0 := by omega
    subst hidx0
    refine ⟨[], cur.getD 0 0, ?_, ?_⟩
    · simp only [openAux]
      rw [get?_eq_some_getD cur 0 0 hpos]
      rfl
    · rfl
  | succ k ih =>
    intro cur index hpos hidx hpad
    have hpadlt : index < (padEven cur).length := by
      rcases hpad with h0 | h0
      · omega
      · exact h0
    have heven : (padEven cur).length % 2 = 0 := padEven_length_even cur
    have hsiblt : (if index % 2 = 0 then index + 1 else index - 1) < (padEven cur).length := by
      split_ifs with hpar
      · omega
      · omega
    set padded := padEven cur with hpadded
    set sib := if index % 2 = 0 then index + 1 else index - 1 with hsib
    have hnext_len : (hashLevel h padded).length = padded.length / 2 := hashLevel_length h padded
    have hnext_pos : 0 < (hashLevel h padded).length := by
      have : 1 ≤ padded.length := le_trans hpos (le_padEven_length cur)
      omega
    have hidx2 : index / 2 < 2 ^ k := by
      have hp : 2 ^ (k + 1) = 2 * 2 ^ k := by rw [pow_succ]; ring
      omega
    have hpad2 : k = 0 ∨ index / 2 < (padEven (hashLevel h padded)).length := by
      rcases Nat.eq_zero_or_pos k with h0 | h0
      · exact Or.inl h0
      · refine Or.inr ?_
        have : index / 2 < (hashLevel h padded).length := by omega
        exact lt_of_lt_of_le this (le_padEven_length _)
    obtain ⟨path2, root2, hopen2, hver2⟩ := ih (hashLevel h padded) (index / 2) hnext_pos hidx2 hpad2
    have hchunk1 : padded.getD (2 * (index / 2)) 0 =
        (if index % 2 = 0 then padded.getD index 0 else padded.getD sib 0) := by
      split_ifs with hpar
      · congr 1; omega
      · rw [hsib, if_neg hpar]; congr 1; omega
    have hchunk2 : padded.getD (2 * (index / 2) + 1) 0 =
        (if index % 2 = 0 then padded.getD sib 0 else padded.getD index 0) := by
      split_ifs with hpar
      · rw [hsib, if_pos hpar]; congr 1; omega
      · congr 1; omega
    have hleafnext : (if k = 0 then (hashLevel h padded).getD 0 0
        else (padEven (hashLevel h padded)).getD (index / 2) 0) =
        (hashLevel h padded).getD (index / 2) 0 := by
      split_ifs with h0
      · subst h0
        have : index / 2 = 0 := by omega
        rw [this]
      · have : index / 2 < (hashLevel h padded).length := by omega
        exact padEven_getD_lt _ _ this
    have hhash : (hashLevel h padded).getD (index / 2) 0 =
        h (padded.getD (2 * (index / 2)) 0) (padded.getD (2 * (index / 2) + 1) 0) := by
      apply hashLevel_getD
      split_ifs at hchunk2 with hpar
      · omega
      · omega
    rw [hleafnext, hhash, hchunk1, hchunk2] at hver2
    refine ⟨(if index % 2 = 0 then padded.getD index 0 :: padded.getD sib 0 :: path2
        else padded.getD sib 0 :: padded.getD index 0 :: path2), root2, ?_, ?_⟩
    · simp only [openAux]
      rw [get?_eq_some_getD padded index 0 hpadlt, get?_eq_some_getD padded sib 0 hsiblt]
      rw [hopen2]
      rfl
    · rw [if_neg (Nat.succ_ne_zero k)]
      by_cases hpar : index % 2 = 0
      · rw [if_pos hpar]
        simp only [verifyAux]
        simp only [if_pos hpar] at hver2 ⊢
        simpa using hver2
      · rw [if_neg hpar]
        simp only [verifyAux]
        simp only [if_neg hpar] at hver2 ⊢
        simpa using hver2

/-- Claim C5: Merkle round-trip.  For every pair hash, nonempty leaves and
index below the leaf count, Tree::open succeeds and Tree::verify accepts
the returned path and root for the leaf stored at the index — proved with
the build height equal to the exact ceiling base-two logarithm that the
spec prescribes.  The source computes that height through an f32 logarithm
which returns fewer levels at large leaf counts (see levelCountAux), and
there the source's own round-trip breaks: at 2 ^ 24 + 1 leaves it builds 24
levels, the top level holds two nodes, and verify at index 2 ^ 24 walks to
the right top node while commit returned the left one.  The theorem shows
the claim holds under the prescribed height, so the f32 height computation
is the code's slip. -/
theorem merkle_roundtrip (h : ℕ → ℕ → ℕ) (leaves : List ℕ) (index : ℕ)
    (hidx : index < leaves.length) :
    ∃ pr, openT h index leaves = some pr ∧
      verifyT h pr.2 index pr.1 (leaves.getD index 0) = true := by
  have hpos : 0 < leaves.length := by omega
  have hle : leaves.length ≤ 2 ^ levelCount leaves.length := (levelCount_spec _ hpos).1
  have hidx2 : index < 2 ^ levelCount leaves.length := by omega
  have hpad : levelCount leaves.length = 0 ∨ index < (padEven leaves).length :=
    Or.inr (lt_of_lt_of_le hidx (le_padEven_length leaves))
  obtain ⟨path, root, hopen, hver⟩ :=
    open_verify_aux h (levelCount leaves.length) leaves index hpos hidx2 hpad
  have hleaf : (if levelCount leaves.length = 0 then leaves.getD 0 0
      else (padEven leaves).getD index 0) = leaves.getD index 0 := by
    split_ifs with h0
    · have hlen1 : leaves.length ≤ 1 := by rw [h0] at hle; simpa using hle
      have hi0 : index = 0 := by omega
      rw [hi0]
    · exact padEven_getD_lt leaves index hidx
  rw [hleaf] at hver
  refine ⟨(path, root), ?_, ?_⟩
  · rw [openT, if_neg (by omega)]
    exact hopen
  · unfold verifyT
    rw [hver]
    simp

/-- Witness for the Merkle round-trip theorem at a concrete instance. -/
theorem merkle_roundtrip_witness :
    1 < List.length [5, 7, 9] ∧
      ∃ pr, openT hDemo 1 [5, 7, 9] = some pr ∧
        verifyT hDemo pr.2 1 pr.1 (List.getD [5, 7, 9] 1 0) = true :=
  ⟨by decide, merkle_roundtrip hDemo [5, 7, 9] 1 (by decide)⟩

/-- Claim C9: for every pair hash, committing to a single-leaf vector
returns the leaf itself: the tree has exactly one level and no hash is
applied. -/
theorem tree_commit_single (h : ℕ → ℕ → ℕ) (x : ℕ) : commitT h [x] = x := rfl

/-- The up-front padding named by claim C7: extend the leaves with zero
elements to the next power-of-two length. -/
def padPow2 (leaves : List ℕ) : List ℕ :=
  leaves ++ List.replicate (2 ^ levelCount leaves.length - leaves.length) 0

/-- Claim C7 (counterexample): for five zero leaves and a concrete pair
hash, per-level padding during build and one up-front power-of-two padding
of the leaf layer produce different roots: the first pads the second level
with a raw zero where the second has the hash of two zeros. -/
theorem tree_pad_equiv_cex :
    commitT hDemo [0, 0, 0, 0, 0] ≠ commitT hDemo (padPow2 [0, 0, 0, 0, 0]) := by
  decide

/-- Claim C7 (amended): per-level padding agrees with up-front power-of-two
padding exactly in the cases where at most the leaf layer itself needs a
zero, i.e. when the leaf count is a power of two or one less than a power
of two. -/
theorem tree_pad_equiv (h : ℕ → ℕ → ℕ) (leaves : List ℕ) (k : ℕ)
    (hlen : leaves.length = 2 ^ k ∨ leaves.length + 1 = 2 ^ k)
    (hpos : 0 < leaves.length) :
    commitT h leaves = commitT h (padPow2 leaves) := by
  rcases hlen with hl | hl
  · have hlev : levelCount leaves.length = k := by rw [hl]; exact levelCount_pow k
    have hsame : padPow2 leaves = leaves := by
      rw [padPow2, hlev, ← hl]
      simp
    rw [hsame]
  · by_cases hone : leaves.length = 1
    · have hlev : levelCount leaves.length = 0 := by rw [hone]; rfl
      have hsame : padPow2 leaves = leaves := by
        rw [padPow2, hlev, hone]
        simp
      rw [hsame]
    · have hk2 : 2 ≤ k := by
        rcases Nat.lt_or_ge k 2 with hlt | hge
        · interval_cases k <;> omega
        · exact hge
      have hlev : levelCount leaves.length = k := by
        rw [show leaves.length = 2 ^ k - 1 by omega]
        exact levelCount_pow_sub_one k hk2
      have hpadded : padPow2 leaves = leaves ++ [0] := by
        rw [padPow2, hlev, show 2 ^ k - leaves.length = 1 by omega]
        rfl
      have heven2 : 2 ∣ 2 ^ k := dvd_pow_self 2 (by omega)
      have hodd : leaves.length % 2 = 1 := by
        obtain ⟨u, hu⟩ := heven2
        omega
      have hlev2 : levelCount (leaves ++ [0]).length = k := by
        have : (leaves ++ [0]).length = 2 ^ k := by simp; omega
        rw [this]
        exact levelCount_pow k
      rw [commitT, commitT, hpadded, hlev, hlev2]
      obtain ⟨j, rfl⟩ : ∃ j, k = j + 1 := ⟨k - 1, by omega⟩
      show commitAux h (j + 1) leaves = commitAux h (j + 1) (leaves ++ [0])
      simp only [commitAux]
      have hpe : padEven leaves = padEven (leaves ++ [0]) := by
        rw [padEven_of_odd leaves hodd, padEven_of_even (leaves ++ [0]) (by simp; omega)]
      rw [hpe]

/-- Witness for the amended padding-equivalence theorem at a concrete
instance with three leaves. -/
theorem tree_pad_equiv_witness :
    (List.length [1, 2, 3] = 2 ^ 2 ∨ List.length [1, 2, 3] + 1 = 2 ^ 2) ∧
      0 < List.length [1, 2, 3] ∧
      commitT hDemo [1, 2, 3] = commitT hDemo (padPow2 [1, 2, 3]) :=
  ⟨by decide, by decide, tree_pad_equiv hDemo [1, 2, 3] 2 (by decide) (by decide)⟩

/-- Claim C10 (counterexample): for the singleton leaves vector with leaf 5,
open at index 1 (equal to the leaf count) passes the bounds check and
returns an empty path and root 5, but verify with the zero element as leaf
rejects: the empty walk compares the zero leaf directly to the root 5. -/
theorem tree_open_past_end_cex :
    openT hDemo 1 [5] = some ([], 5) ∧ verifyT hDemo 5 1 [] 0 = false := by
  decide

/-- Claim C10 (amended): the bounds check of Tree::open rejects only indices
strictly greater than the leaf count, and for every leaf count of the form
2 ^ k - 1 with k at least 2 — odd counts at which the source's f32 level
count provably equals the exact ceiling logarithm embedded here — opening
at the leaf count itself succeeds and yields a path that Tree::verify
accepts with the zero padding element as the leaf.  At other odd counts the
f32 level count can fall short of the exact ceiling (it does at 2 ^ 24 + 1;
see levelCountAux and claim C5), and there the walk from the past-the-end
index reaches the right top node and verify rejects, so the scope stops at
the counts where the two heights provably agree. -/
theorem tree_open_past_end (h : ℕ → ℕ → ℕ) (leaves : List ℕ) (k : ℕ)
    (hk : 2 ≤ k) (hlen : leaves.length + 1 = 2 ^ k) :
    ∃ pr, openT h leaves.length leaves = some pr ∧
      verifyT h pr.2 leaves.length pr.1 0 = true := by
  have h2k : 4 ≤ 2 ^ k := by
    calc (4 : ℕ) = 2 ^ 2 := by norm_num
    _ ≤ 2 ^ k := Nat.pow_le_pow_right (by omega) hk
  have hpos : 0 < leaves.length := by omega
  have hlev : levelCount leaves.length = k := by
    rw [show leaves.length = 2 ^ k - 1 by omega]
    exact levelCount_pow_sub_one k hk
  have hodd : leaves.length % 2 = 1 := by
    have hdvd : 2 ∣ 2 ^ k := dvd_pow_self 2 (by omega)
    obtain ⟨u, hu⟩ := hdvd
    omega
  have hidx : leaves.length < 2 ^ levelCount leaves.length := by
    rw [hlev]
    omega
  have hpadlen : (padEven leaves).length = leaves.length + 1 := by
    rw [padEven_of_odd leaves hodd]
    simp
  have hpad : levelCount leaves.length = 0 ∨ leaves.length < (padEven leaves).length :=
    Or.inr (by omega)
  obtain ⟨path, root, hopen, hver⟩ :=
    open_verify_aux h (levelCount leaves.length) leaves leaves.length hpos hidx hpad
  have hleaf : (if levelCount leaves.length = 0 then leaves.getD 0 0
      else (padEven leaves).getD leaves.length 0) = 0 := by
    rw [if_neg (by omega), padEven_of_odd leaves hodd,
      List.getD_append_right leaves [0] 0 leaves.length le_rfl]
    simp
  rw [hleaf] at hver
  refine ⟨(path, root), ?_, ?_⟩
  · rw [openT, if_neg (by omega)]
    exact hopen
  · unfold verifyT
    rw [hver]
    simp

/-- Witness for the amended open-past-the-end theorem at a concrete
three-leaf instance. -/
theorem tree_open_past_end_witness :
    (2 ≤ 2 ∧ List.length [4, 5, 6] + 1 = 2 ^ 2) ∧
      ∃ pr, openT hDemo (List.length [4, 5, 6]) [4, 5, 6] = some pr ∧
        verifyT hDemo pr.2 (List.length [4, 5, 6]) pr.1 0 = true :=
  ⟨⟨by decide, by decide⟩, tree_open_past_end hDemo [4, 5, 6] 2 (by decide) (by decide)⟩

/-! ## Polynomial (src/polynomial.rs) -/

/-- Index of the last nonzero coefficient, if any: the top-down scan shared
by Polynomial::degree and Polynomial::pop_term. -/
def degScan : List ℤ → Option ℕ
  | [] => none
  | c :: rest =>
      match degScan rest with
      | some d => some (d + 1)
      | none => if c ≠ 0 then some 0 else none

/-- Embedding of Polynomial::degree: the largest index holding a nonzero
coefficient, or 0 for the zero polynomial. -/
def polyDegree (l : List ℤ) : ℕ := (degScan l).getD 0

/-- Embedding of Polynomial::pop_term, restricted to the returned pair (both
call sites in div discard the mutated receiver): the same top-down scan as
degree, yielding the leading coefficient and its exponent, or (0, 0) for
the zero polynomial. -/
def popTerm (l : List ℤ) : ℤ × ℕ := (l.getD (polyDegree l) 0, polyDegree l)

/-- Embedding of Polynomial::is_zero. -/
def polyIsZero (l : List ℤ) : Bool := l.all (fun c => c == 0)

/-- Embedding of Polynomial::trim.  The source loop iterates over the range
from len up to 0, which is empty, so trim never shrinks the vector: it is
the identity. -/
def polyTrim (l : List ℤ) : List ℤ := l

/-- Embedding of Polynomial::term: extend the coefficient vector with zeros
up to the exponent when needed, then add the coefficient into place with
field addition. -/
def polyTerm (p : ℕ) (coefs : List ℤ) (c : ℤ) (e : ℕ) : List ℤ :=
  let ext := if coefs.length < e + 1
    then coefs ++ List.replicate (e + 1 - coefs.length) 0 else coefs
  ext.set e (fadd p (ext.getD e 0) c)

/-- Embedding of Polynomial::add: pointwise field addition on the shared
prefix; excess coefficients of either argument are kept unchanged. -/
def polyAdd (p : ℕ) : List ℤ → List ℤ → List ℤ
  | [], other => other
  | s, [] => s
  | sc :: srest, oc :: orest => fadd p sc oc :: polyAdd p srest orest

/-- Embedding of Polynomial::sub: pointwise field subtraction on the shared
prefix; excess coefficients of the subtrahend are appended negated. -/
def polySub (p : ℕ) : List ℤ → List ℤ → List ℤ
  | [], other => other.map (fneg p)
  | s, [] => s
  | sc :: srest, oc :: orest => fsub p sc oc :: polySub p srest orest

/-- Embedding of Polynomial::mul_scalar. -/
def polyMulScalar (p : ℕ) (v : ℤ) (l : List ℤ) : List ℤ :=
  l.map (fun c => fmul p v c)

/-- Embedding of Polynomial::mul: double loop accumulating field products
into a zero-initialised vector of combined length (outer loop over the
argument, inner loop over the receiver), followed by the identity trim. -/
def polyMul (p : ℕ) (self poly : List ℤ) : List ℤ :=
  polyTrim ((List.range poly.length).foldl (fun out i =>
      (List.range self.length).foldl (fun out2 j =>
        out2.set (j + i) (fadd p (out2.getD (j + i) 0)
          (fmul p (self.getD j 0) (poly.getD i 0)))) out)
    (List.replicate (self.length + poly.length) 0))

/-- Embedding of Polynomial::eval: raw accumulation of coefficient times
field power, reduced once at the end. -/
def polyEval (p : ℕ) (l : List ℤ) (v : ℤ) : ℤ :=
  modd p ((List.range l.length).foldl
    (fun acc i => acc + l.getD i 0 * fexp p v i) 0)

/-- One iteration of the division loop of Polynomial::div, acting on the
pair of quotient and running remainder.  The divisor leading term is popped
once before the loop, so its inverse and exponent are parameters here. -/
def divStep (p : ℕ) (divisor : List ℤ) (dinv : ℤ) (dexp : ℕ)
    (s : List ℤ × List ℤ) : List ℤ × List ℤ :=
  let lt := popTerm s.2
  let ncoef := fmul p lt.1 dinv
  let nexp := lt.2 - dexp
  (polyTerm p s.1 ncoef nexp,
    polySub p s.2 (polyMul p (polyTerm p [] ncoef nexp) divisor))

/-- The division loop with explicit fuel; none models a run that has not
terminated within the allotted iterations (the source loop is unbounded). -/
def divLoop (p : ℕ) (divisor : List ℤ) (dinv : ℤ) (dexp : ℕ) :
    ℕ → List ℤ × List ℤ → Option (List ℤ × List ℤ)
  | 0, _ => none
  | fuel + 1, s =>
      if polyDegree divisor ≤ polyDegree s.2 then
        divLoop p divisor dinv dexp fuel (divStep p divisor dinv dexp s)
      else some s

/-- Embedding of Polynomial::div returning (quotient, remainder): the panic
on a zero divisor is modelled by none, and the unbounded while loop runs on
the given fuel. -/
def divT (p : ℕ) (fuel : ℕ) (dividend divisor : List ℤ) :
    Option (List ℤ × List ℤ) :=
  if polyIsZero divisor then none
  else divLoop p divisor (finv p (popTerm divisor).1) (popTerm divisor).2 fuel
    ([], dividend)

/-- Embedding of Polynomial::safe_div: division whose nonzero-remainder
panic is modelled by none.  Fuel one beyond the dividend length covers every
terminating run at the modelled call sites. -/
def safeDivT (p : ℕ) (self divisor : List ℤ) : Option (List ℤ) :=
  match divT p (self.length + 1) self divisor with
  | none => none
  | some qr => if polyIsZero qr.2 then some qr.1 else none

/-- Embedding of Polynomial::lagrange.  The Field::bigint conversions of the
source are the identity on the embedded integers; the x-value differences
inside the denominator products are raw integer subtractions exactly as in
the source. -/
def lagrangeT (p : ℕ) (xs ys : List ℤ) : Option (List ℤ) :=
  if xs.length ≠ ys.length then none
  else
    let numerator := xs.foldl
      (fun acc v => polyMul p acc (polyTerm p (polyTerm p [] 1 1) (fneg p v) 0))
      (polyTerm p [] 1 0)
    let polys := (List.range xs.length).mapM (fun i =>
      let denominator := (List.range xs.length).foldl
        (fun acc j => if j = i then acc
          else fmul p acc (xs.getD i 0 - xs.getD j 0)) 1
      safeDivT p numerator
        (polyMulScalar p denominator
          (polyTerm p (polyTerm p [] 1 1) (fneg p (xs.getD i 0)) 0)))
    match polys with
    | none => none
    | some ps =>
        some ((List.range xs.length).foldl
          (fun out i => polyAdd p out (polyMulScalar p (ys.getD i 0) (ps.getD i [])))
          [])

/-- Claim C8: the Lagrange reconstruction property fails on the code as a
BigInt equality.  Over p = 5 with xs = [1, 4] (distinct mod 5) and
ys = [0, 1], the interpolated polynomial is [3, 2] and its evaluation at
xs[0] = 1 accumulates to exactly 5, which modd returns unreduced; the
result 5 differs from ys[0] = 0 although it is congruent to it, the same
modd boundary slip as in claim C4. -/
theorem lagrange_eval_noncanonical :
    lagrangeT 5 [1, 4] [0, 1] = some [3, 2] ∧ polyEval 5 [3, 2] 1 = 5 := by
  constructor
  · decide
  · decide

/-- Claim C6 (counterexample): division by the nonzero constant polynomial
[2] does not terminate.  Dividing [5] by [2] over p = 101 reaches the state
with quotient [53] and remainder [0, 0] after one iteration; that state is
a fixed point of the loop body while the loop guard (degree of remainder at
least degree of divisor, both 0) stays true, so no fuel suffices. -/
theorem poly_div_const_divisor_cex :
    divT 101 3 [5] [2] = none ∧
      divStep 101 [2] (finv 101 2) 0 ([53], [0, 0]) = ([53], [0, 0]) ∧
      polyDegree [(2 : ℤ)] ≤ polyDegree [(0 : ℤ), 0] := by
  refine ⟨by decide, by decide, by decide⟩

/-! ### List access helpers -/

lemma getD_set_self {α : Type} :
    ∀ (l : List α) (k : ℕ) (v d : α), k < l.length → (l.set k v).getD k d = v
  | a :: t, 0, v, d, _ => rfl
  | a :: t, k + 1, v, d, h => getD_set_self t k v d (by simpa using h)

lemma getD_set_ne {α : Type} :
    ∀ (l : List α) (k j : ℕ) (v d : α), k ≠ j → (l.set k v).getD j d = l.getD j d
  | [], _, _, _, _, _ => rfl
  | a :: t, 0, 0, v, d, h => absurd rfl h
  | a :: t, 0, j + 1, v, d, h => rfl
  | a :: t, k + 1, 0, v, d, h => rfl
  | a :: t, k + 1, j + 1, v, d, h => getD_set_ne t k j v d (fun hc => h (by omega))

lemma set_getD_eq {α : Type} : ∀ (l : List α) (k : ℕ) (d : α), l.set k (l.getD k d) = l
  | [], _, _ => rfl
  | a :: t, 0, d => rfl
  | a :: t, k + 1, d => congrArg (a :: ·) (set_getD_eq t k d)

lemma getD_replicate_zero : ∀ (n j : ℕ), (List.replicate n (0 : ℤ)).getD j 0 = 0
  | 0, _ => rfl
  | n + 1, 0 => rfl
  | n + 1, j + 1 => getD_replicate_zero n j

lemma getD_zero_of_all_zero (l : List ℤ) (h : ∀ x ∈ l, x = 0) (j : ℕ) :
    l.getD j 0 = 0 := by
  rcases Nat.lt_or_ge j l.length with hj | hj
  · rw [List.getD_eq_getElem l 0 hj]
    exact h _ (List.getElem_mem hj)
  · exact List.getD_eq_default l 0 hj

lemma canon_getD (p : ℕ) (hp : 0 < p) (l : List ℤ)
    (hc : ∀ x ∈ l, 0 ≤ x ∧ x < (p : ℤ)) (j : ℕ) :
    0 ≤ l.getD j 0 ∧ l.getD j 0 < (p : ℤ) := by
  rcases Nat.lt_or_ge j l.length with hj | hj
  · rw [List.getD_eq_getElem l 0 hj]
    exact hc _ (List.getElem_mem hj)
  · rw [List.getD_eq_default l 0 hj]
    exact ⟨le_refl 0, by exact_mod_cast hp⟩

lemma canon_of_getD (p : ℕ) (l : List ℤ)
    (h : ∀ j, 0 ≤ l.getD j 0 ∧ l.getD j 0 < (p : ℤ)) :
    ∀ x ∈ l, 0 ≤ x ∧ x < (p : ℤ) := by
  intro x hx
  obtain ⟨i, hi, rfl⟩ := List.mem_iff_getElem.mp hx
  have := h i
  rwa [List.getD_eq_getElem l 0 hi] at this

/-! ### Facts about degree, terms, subtraction and multiplication -/

lemma fmul_zero_left (p : ℕ) (d : ℤ) : fmul p 0 d = 0 := by
  unfold fmul modd
  split_ifs with h1 h2 <;> simp_all

lemma fmul_zero_right (p : ℕ) (d : ℤ) : fmul p d 0 = 0 := by
  unfold fmul modd
  split_ifs with h1 h2 <;> simp_all

lemma fneg_zero (p : ℕ) : fneg p 0 = 0 := by
  unfold fneg modd
  split_ifs with h1 h2 <;> simp_all

lemma modd_zero (p : ℕ) : modd p 0 = 0 := by
  unfold modd
  split_ifs with h1 h2 <;> simp_all

lemma fsub_self (p : ℕ) (a : ℤ) : fsub p a a = 0 := by
  unfold fsub
  rw [sub_self]
  exact modd_zero p

lemma degScan_eq_none_iff : ∀ l : List ℤ, degScan l = none ↔ ∀ x ∈ l, x = 0
  | [] => by simp [degScan]
  | c :: rest => by
      simp only [degScan]
      cases hrec : degScan rest with
      | some d =>
        constructor
        · intro h; simp at h
        · intro h
          have hall : ∀ x ∈ rest, x = 0 := fun x hx => h x (List.mem_cons_of_mem c hx)
          rw [(degScan_eq_none_iff rest).mpr hall] at hrec
          simp at hrec
      | none =>
        split_ifs with hc
        · constructor
          · intro h; simp at h
          · intro h; exact absurd (h c (List.mem_cons_self c rest)) hc
        · push_neg at hc
          constructor
          · intro _ x hx
            rcases List.mem_cons.mp hx with rfl | hx2
            · exact hc
            · exact (degScan_eq_none_iff rest).mp hrec x hx2
          · intro _; rfl

lemma degScan_some_spec : ∀ (l : List ℤ) (d : ℕ), degScan l = some d →
    d < l.length ∧ l.getD d 0 ≠ 0 ∧ ∀ j, d < j → l.getD j 0 = 0
  | [], d => by simp [degScan]
  | c :: rest, d => by
      simp only [degScan]
      cases hrec : degScan rest with
      | some e =>
        intro h
        have hd : d = e + 1 := by
          have := Option.some.inj h
          omega
        subst hd
        obtain ⟨h1, h2, h3⟩ := degScan_some_spec rest e hrec
        refine ⟨by simp only [List.length_cons]; omega, by simpa using h2, ?_⟩
        intro j hj
        obtain ⟨j2, rfl⟩ : ∃ j2, j = j2 + 1 := ⟨j - 1, by omega⟩
        rw [List.getD_cons_succ]
        exact h3 j2 (by omega)
      | none =>
        split_ifs with hc
        · intro h
          have hd : d = 0 := by
            have := Option.some.inj h
            omega
          subst hd
          refine ⟨by simp, by simpa using hc, ?_⟩
          intro j hj
          obtain ⟨j2, rfl⟩ : ∃ j2, j = j2 + 1 := ⟨j - 1, by omega⟩
          rw [List.getD_cons_succ]
          exact getD_zero_of_all_zero rest ((degScan_eq_none_iff rest).mp hrec) j2
        · intro h; simp at h

lemma polyDegree_lt_of_zero_from (l : List ℤ) (e : ℕ) (he : 1 ≤ e)
    (h : ∀ j, e ≤ j → l.getD j 0 = 0) : polyDegree l < e := by
  unfold polyDegree
  cases hscan : degScan l with
  | none => simpa using he
  | some d =>
    obtain ⟨h1, h2, h3⟩ := degScan_some_spec l d hscan
    simp only [Option.getD_some]
    by_contra hcon
    exact h2 (h d (by omega))

lemma polyDegree_spec_of_pos (l : List ℤ) (he : 1 ≤ polyDegree l) :
    polyDegree l < l.length ∧ l.getD (polyDegree l) 0 ≠ 0 ∧
      ∀ j, polyDegree l < j → l.getD j 0 = 0 := by
  cases hscan : degScan l with
  | none =>
    exfalso
    unfold polyDegree at he
    rw [hscan] at he
    simp at he
  | some d =>
    have hpd : polyDegree l = d := by unfold polyDegree; rw [hscan]; rfl
    rw [hpd]
    exact degScan_some_spec l d hscan

lemma polyIsZero_false_of_degree (l : List ℤ) (he : 1 ≤ polyDegree l) :
    polyIsZero l = false := by
  obtain ⟨h1, h2, _⟩ := polyDegree_spec_of_pos l he
  unfold polyIsZero
  rw [List.all_eq_false]
  refine ⟨l.getD (polyDegree l) 0, ?_, by simpa using h2⟩
  rw [List.getD_eq_getElem l 0 h1]
  exact List.getElem_mem h1

lemma replicate_set_last : ∀ (e : ℕ) (v : ℤ),
    (List.replicate (e + 1) (0 : ℤ)).set e v = List.replicate e 0 ++ [v]
  | 0, v => rfl
  | e + 1, v => by
      rw [List.replicate_succ]
      show (0 : ℤ) :: (List.replicate (e + 1) 0).set e v = _
      rw [replicate_set_last e v]
      rw [List.replicate_succ]
      rfl

lemma polyTerm_nil (p : ℕ) (c : ℤ) (e : ℕ) :
    polyTerm p [] c e = List.replicate e 0 ++ [modd p c] := by
  unfold polyTerm
  simp only [List.length_nil, List.nil_append]
  rw [if_pos (by omega)]
  rw [Nat.sub_zero, getD_replicate_zero (e + 1) e]
  rw [show fadd p 0 c = modd p c by rw [fadd, zero_add]]
  exact replicate_set_last e (modd p c)

lemma mono_getD (c : ℤ) (e : ℕ) :
    ∀ j, (List.replicate e (0 : ℤ) ++ [c]).getD j 0 = if j = e then c else 0 := by
  intro j
  rcases Nat.lt_trichotomy j e with hj | hj | hj
  · rw [if_neg (by omega)]
    rw [List.getD_append _ _ _ _ (by simpa using hj)]
    exact getD_replicate_zero e j
  · subst hj
    rw [if_pos rfl]
    rw [List.getD_append_right _ _ _ _ (by simp)]
    simp
  · rw [if_neg (by omega)]
    apply List.getD_eq_default
    simp
    omega

lemma polySub_nil_left (p : ℕ) (o : List ℤ) : polySub p [] o = o.map (fneg p) := by
  cases o with
  | nil => rfl
  | cons oc orest => rfl

lemma polySub_nil_right (p : ℕ) (s : List ℤ) : polySub p s [] = s := by
  cases s with
  | nil => rfl
  | cons sc srest => rfl

lemma polySub_cons_cons (p : ℕ) (sc oc : ℤ) (srest orest : List ℤ) :
    polySub p (sc :: srest) (oc :: orest) = fsub p sc oc :: polySub p srest orest := rfl

lemma polySub_getD (p : ℕ) : ∀ (s o : List ℤ) (j : ℕ),
    (polySub p s o).getD j 0 =
      if j < s.length then
        (if j < o.length then fsub p (s.getD j 0) (o.getD j 0) else s.getD j 0)
      else (if j < o.length then fneg p (o.getD j 0) else 0)
  | [], o, j => by
      rw [polySub_nil_left]
      rw [if_neg (by simp)]
      rcases Nat.lt_or_ge j o.length with hj | hj
      · rw [if_pos hj]
        rw [List.getD_eq_getElem (o.map (fneg p)) 0 (by simpa using hj)]
        rw [List.getElem_map]
        rw [List.getD_eq_getElem o 0 hj]
      · rw [if_neg (by omega)]
        exact List.getD_eq_default _ _ (by simpa using hj)
  | sc :: srest, [], j => by
      rw [polySub_nil_right]
      rcases Nat.lt_or_ge j (sc :: srest).length with hj | hj
      · rw [if_pos hj, if_neg (by simp)]
      · rw [if_neg (by omega), if_neg (by simp)]
        exact List.getD_eq_default _ _ hj
  | sc :: srest, oc :: orest, j => by
      rw [polySub_cons_cons]
      cases j with
      | zero =>
        rw [if_pos (by simp), if_pos (by simp)]
        rfl
      | succ j2 =>
        have ih := polySub_getD p srest orest j2
        rw [List.getD_cons_succ, ih]
        by_cases h1 : j2 < srest.length
        · by_cases h2 : j2 < orest.length
          · rw [if_pos h1, if_pos h2,
              if_pos (show j2 + 1 < (sc :: srest).length by simp only [List.length_cons]; omega),
              if_pos (show j2 + 1 < (oc :: orest).length by simp only [List.length_cons]; omega)]
            simp only [List.getD_cons_succ]
          · rw [if_pos h1, if_neg h2,
              if_pos (show j2 + 1 < (sc :: srest).length by simp only [List.length_cons]; omega),
              if_neg (show ¬ j2 + 1 < (oc :: orest).length by simp only [List.length_cons]; omega)]
            simp only [List.getD_cons_succ]
        · by_cases h2 : j2 < orest.length
          · rw [if_neg h1, if_pos h2,
              if_neg (show ¬ j2 + 1 < (sc :: srest).length by simp only [List.length_cons]; omega),
              if_pos (show j2 + 1 < (oc :: orest).length by simp only [List.length_cons]; omega)]
            simp only [List.getD_cons_succ]
          · rw [if_neg h1, if_neg h2,
              if_neg (show ¬ j2 + 1 < (sc :: srest).length by simp only [List.length_cons]; omega),
              if_neg (show ¬ j2 + 1 < (oc :: orest).length by simp only [List.length_cons]; omega)]

lemma polySub_canon (p : ℕ) (hp : 0 < p) : ∀ (s o : List ℤ),
    (∀ x ∈ s, 0 ≤ x ∧ x < (p : ℤ)) → (∀ x ∈ o, 0 ≤ x ∧ x ≤ (p : ℤ)) →
      ∀ x ∈ polySub p s o, 0 ≤ x ∧ x < (p : ℤ)
  | [], o, _, ho => by
      intro x hx
      rw [polySub_nil_left] at hx
      obtain ⟨y, hy, rfl⟩ := List.mem_map.mp hx
      exact fneg_lt p hp y (ho y hy)
  | sc :: srest, [], hs, _ => by
      intro x hx
      rw [polySub_nil_right] at hx
      exact hs x hx
  | sc :: srest, oc :: orest, hs, ho => by
      intro x hx
      rw [polySub_cons_cons] at hx
      rcases List.mem_cons.mp hx with rfl | hx2
      · exact fsub_lt p hp sc oc (hs sc (List.mem_cons_self sc srest))
          (ho oc (List.mem_cons_self oc orest))
      · exact polySub_canon p hp srest orest
          (fun y hy => hs y (List.mem_cons_of_mem sc hy))
          (fun y hy => ho y (List.mem_cons_of_mem oc hy)) x hx2

lemma innerFold_prefix (p : ℕ) (hp : 0 < p) (mono div : List ℤ) (e i : ℕ) (c : ℤ)
    (hmono : ∀ j, mono.getD j 0 = if j = e then c else 0) :
    ∀ m, m ≤ e → ∀ out : List ℤ, (∀ x ∈ out, 0 ≤ x ∧ x < (p : ℤ)) →
      (List.range m).foldl (fun out2 j =>
        out2.set (j + i) (fadd p (out2.getD (j + i) 0)
          (fmul p (mono.getD j 0) (div.getD i 0)))) out = out := by
  intro m
  induction m with
  | zero => intro _ out _; rfl
  | succ m ih =>
    intro hm out hout
    rw [List.range_succ, List.foldl_append, ih (by omega) out hout]
    simp only [List.foldl_cons, List.foldl_nil]
    rw [hmono m, if_neg (by omega), fmul_zero_left]
    rw [show fadd p (out.getD (m + i) 0) 0 = modd p (out.getD (m + i) 0) by
      rw [fadd, add_zero]]
    rw [modd_id p _ (canon_getD p hp out hout (m + i)).1
      (le_of_lt (canon_getD p hp out hout (m + i)).2)]
    exact set_getD_eq out (m + i) 0

lemma innerFold_eq (p : ℕ) (hp : 0 < p) (mono div : List ℤ) (e i : ℕ) (c : ℤ)
    (hmono : ∀ j, mono.getD j 0 = if j = e then c else 0)
    (hmlen : mono.length = e + 1) :
    ∀ out : List ℤ, (∀ x ∈ out, 0 ≤ x ∧ x < (p : ℤ)) →
      (List.range mono.length).foldl (fun out2 j =>
        out2.set (j + i) (fadd p (out2.getD (j + i) 0)
          (fmul p (mono.getD j 0) (div.getD i 0)))) out =
        out.set (e + i) (fadd p (out.getD (e + i) 0) (fmul p c (div.getD i 0))) := by
  intro out hout
  rw [hmlen, List.range_succ, List.foldl_append,
    innerFold_prefix p hp mono div e i c hmono e le_rfl out hout]
  simp only [List.foldl_cons, List.foldl_nil]
  rw [hmono e, if_pos rfl]

lemma outerFold_spec (p : ℕ) (hp : p.Prime) (mono div : List ℤ) (e : ℕ) (c : ℤ)
    (hmono : ∀ j, mono.getD j 0 = if j = e then c else 0)
    (hmlen : mono.length = e + 1)
    (hc : 0 ≤ c ∧ c < (p : ℤ))
    (hdiv : ∀ x ∈ div, 0 ≤ x ∧ x < (p : ℤ)) :
    ∀ n, n ≤ div.length →
      ((List.range n).foldl (fun out i =>
          (List.range mono.length).foldl (fun out2 j =>
            out2.set (j + i) (fadd p (out2.getD (j + i) 0)
              (fmul p (mono.getD j 0) (div.getD i 0)))) out)
        (List.replicate (mono.length + div.length) 0)).length
          = mono.length + div.length ∧
      ∀ pos,
        ((List.range n).foldl (fun out i =>
            (List.range mono.length).foldl (fun out2 j =>
              out2.set (j + i) (fadd p (out2.getD (j + i) 0)
                (fmul p (mono.getD j 0) (div.getD i 0)))) out)
          (List.replicate (mono.length + div.length) 0)).getD pos 0 =
          if e ≤ pos ∧ pos < e + n then fmul p c (div.getD (pos - e) 0) else 0 := by
  intro n
  induction n with
  | zero =>
    intro _
    constructor
    · simp
    · intro pos
      rw [if_neg (by omega)]
      exact getD_replicate_zero _ pos
  | succ n ih =>
    intro hn
    obtain ⟨ihlen, ihget⟩ := ih (by omega)
    rw [List.range_succ, List.foldl_append]
    simp only [List.foldl_cons, List.foldl_nil]
    have hcanon_prev := canon_of_getD p _ (fun j => by
      rw [ihget j]
      split_ifs with hcond
      · exact fmul_lt p hp c (div.getD (j - e) 0) hc (canon_getD p hp.pos div hdiv (j - e))
      · exact ⟨le_refl 0, by exact_mod_cast hp.pos⟩)
    rw [innerFold_eq p hp.pos mono div e n c hmono hmlen _ hcanon_prev]
    rw [ihget (e + n), if_neg (by omega)]
    rw [show fadd p 0 (fmul p c (div.getD n 0)) = modd p (fmul p c (div.getD n 0)) by
      rw [fadd, zero_add]]
    have hfc := fmul_lt p hp c (div.getD n 0) hc (canon_getD p hp.pos div hdiv n)
    rw [modd_id p _ hfc.1 (le_of_lt hfc.2)]
    constructor
    · rw [List.length_set]
      exact ihlen
    · intro pos
      by_cases hpos : pos = e + n
      · subst hpos
        rw [getD_set_self _ _ _ _ (by rw [ihlen]; omega)]
        rw [if_pos (by omega), show e + n - e = n from by omega]
      · rw [getD_set_ne _ _ _ _ _ (fun hcc => hpos hcc.symm)]
        rw [ihget pos]
        by_cases hcond : e ≤ pos ∧ pos < e + n
        · rw [if_pos hcond, if_pos (by omega)]
        · rw [if_neg hcond, if_neg (by omega)]

lemma polyMul_monomial (p : ℕ) (hp : p.Prime) (c : ℤ) (hc : 0 ≤ c ∧ c < (p : ℤ))
    (e : ℕ) (div : List ℤ) (hdiv : ∀ x ∈ div, 0 ≤ x ∧ x < (p : ℤ)) :
    (polyMul p (List.replicate e 0 ++ [c]) div).length = (e + 1) + div.length ∧
      ∀ pos, (polyMul p (List.replicate e 0 ++ [c]) div).getD pos 0 =
        if e ≤ pos ∧ pos < e + div.length then fmul p c (div.getD (pos - e) 0) else 0 := by
  have hmlen : (List.replicate e (0 : ℤ) ++ [c]).length = e + 1 := by simp
  have hout := outerFold_spec p hp (List.replicate e 0 ++ [c]) div e c
    (mono_getD c e) hmlen hc hdiv div.length le_rfl
  unfold polyMul polyTrim
  constructor
  · have h1 := hout.1
    rw [hmlen] at h1
    rw [hmlen]
    exact h1
  · intro pos
    have h2 := hout.2 pos
    rw [hmlen] at h2
    rw [hmlen]
    exact h2

lemma divStep_spec (p : ℕ) (hp : p.Prime) (divisor : List ℤ)
    (hdiv : ∀ x ∈ divisor, 0 ≤ x ∧ x < (p : ℤ)) (he : 1 ≤ polyDegree divisor)
    (q inter : List ℤ) (hic : ∀ x ∈ inter, 0 ≤ x ∧ x < (p : ℤ))
    (hguard : polyDegree divisor ≤ polyDegree inter) :
    (∀ x ∈ (divStep p divisor (finv p (popTerm divisor).1) (popTerm divisor).2 (q, inter)).2,
        0 ≤ x ∧ x < (p : ℤ)) ∧
      polyDegree (divStep p divisor (finv p (popTerm divisor).1) (popTerm divisor).2 (q, inter)).2
        < polyDegree inter := by
  have hppos : 0 < p := hp.pos
  obtain ⟨hel, hlead, hdz⟩ := polyDegree_spec_of_pos divisor he
  have hd1 : 1 ≤ polyDegree inter := le_trans he hguard
  obtain ⟨hdl, hld, hiz⟩ := polyDegree_spec_of_pos inter hd1
  set e := polyDegree divisor with hee
  set d := polyDegree inter with hdd
  set dlead := divisor.getD e 0 with hdlead
  have hdleadc : 0 ≤ dlead ∧ dlead < (p : ℤ) := canon_getD p hppos divisor hdiv e
  have hdleadpos : 0 < dlead := lt_of_le_of_ne hdleadc.1 (Ne.symm hlead)
  have hnd : ¬ (p : ℤ) ∣ dlead := by
    intro hcontra
    have := Int.le_of_dvd hdleadpos hcontra
    omega
  set dinv := finv p dlead with hdinv
  have hdinvc : 0 ≤ dinv ∧ dinv < (p : ℤ) :=
    ⟨finv_nonneg p hppos dlead, finv_lt p hp dlead hnd⟩
  set L := inter.getD d 0 with hL
  have hLc : 0 ≤ L ∧ L < (p : ℤ) := canon_getD p hppos inter hic d
  set ncoef := fmul p L dinv with hncoef
  have hncoefc : 0 ≤ ncoef ∧ ncoef < (p : ℤ) := fmul_lt p hp L dinv hLc hdinvc
  have hstep : (divStep p divisor (finv p (popTerm divisor).1) (popTerm divisor).2
      (q, inter)).2 = polySub p inter (polyMul p (polyTerm p [] ncoef (d - e)) divisor) := rfl
  have hmonoform : polyTerm p [] ncoef (d - e) = List.replicate (d - e) 0 ++ [ncoef] := by
    rw [polyTerm_nil, modd_id p ncoef hncoefc.1 (le_of_lt hncoefc.2)]
  obtain ⟨htlen0, htget0⟩ := polyMul_monomial p hp ncoef hncoefc (d - e) divisor hdiv
  set t := polyMul p (polyTerm p [] ncoef (d - e)) divisor with ht
  have htlen : t.length = (d - e + 1) + divisor.length := by
    rw [ht, hmonoform]
    exact htlen0
  have htget : ∀ pos, t.getD pos 0 =
      if d - e ≤ pos ∧ pos < d - e + divisor.length
        then fmul p ncoef (divisor.getD (pos - (d - e)) 0) else 0 := by
    intro pos
    rw [ht, hmonoform]
    exact htget0 pos
  haveI : Fact p.Prime := ⟨hp⟩
  have hdnz : ((dlead : ℤ) : ZMod p) ≠ 0 := by
    rw [Ne, ZMod.intCast_zmod_eq_zero_iff_dvd]
    exact hnd
  have hcastmul : ((fmul p ncoef dlead : ℤ) : ZMod p) = ((L : ℤ) : ZMod p) := by
    rw [fmul_cast, hncoef, fmul_cast, hdinv, finv_cast p hp dlead hnd]
    rw [mul_assoc, inv_mul_cancel₀ hdnz, mul_one]
  have hcancel : fmul p ncoef dlead = L :=
    canonical_eq_of_modEq p _ _ ((ZMod.intCast_eq_intCast_iff _ _ _).mp hcastmul)
      (fmul_lt p hp ncoef dlead hncoefc hdleadc) hLc
  have htd : t.getD d 0 = L := by
    rw [htget d, if_pos ⟨by omega, by omega⟩, show d - (d - e) = e from by omega]
    exact hcancel
  have htabove : ∀ j, d < j → t.getD j 0 = 0 := by
    intro j hj
    rw [htget j]
    by_cases hcnd : d - e ≤ j ∧ j < d - e + divisor.length
    · rw [if_pos hcnd, hdz (j - (d - e)) (by omega)]
      exact fmul_zero_right p ncoef
    · rw [if_neg hcnd]
  have hzero : ∀ j, d ≤ j → (polySub p inter t).getD j 0 = 0 := by
    intro j hj
    rw [polySub_getD]
    rcases eq_or_lt_of_le hj with rfl | hjgt
    · rw [if_pos hdl, if_pos (by omega), htd, ← hL]
      exact fsub_self p L
    · have hiz2 : inter.getD j 0 = 0 := hiz j hjgt
      have htz : t.getD j 0 = 0 := htabove j hjgt
      by_cases h1 : j < inter.length
      · by_cases h2 : j < t.length
        · rw [if_pos h1, if_pos h2, hiz2, htz]
          exact fsub_self p 0
        · rw [if_pos h1, if_neg h2]
          exact hiz2
      · by_cases h2 : j < t.length
        · rw [if_neg h1, if_pos h2, htz]
          exact fneg_zero p
        · rw [if_neg h1, if_neg h2]
  have htcanon : ∀ x ∈ t, 0 ≤ x ∧ x < (p : ℤ) := canon_of_getD p t (fun j => by
    rw [htget j]
    split_ifs with hcnd
    · exact fmul_lt p hp ncoef (divisor.getD (j - (d - e)) 0) hncoefc
        (canon_getD p hppos divisor hdiv (j - (d - e)))
    · exact ⟨le_refl 0, by exact_mod_cast hppos⟩)
  constructor
  · rw [hstep]
    exact polySub_canon p hppos inter t hic
      (fun x hx => ⟨(htcanon x hx).1, le_of_lt (htcanon x hx).2⟩)
  · rw [hstep]
    exact polyDegree_lt_of_zero_from (polySub p inter t) d hd1 hzero

lemma divLoop_some (p : ℕ) (hp : p.Prime) (divisor : List ℤ)
    (hdiv : ∀ x ∈ divisor, 0 ≤ x ∧ x < (p : ℤ)) (he : 1 ≤ polyDegree divisor) :
    ∀ (fuel : ℕ) (q inter : List ℤ), (∀ x ∈ inter, 0 ≤ x ∧ x < (p : ℤ)) →
      polyDegree inter < fuel →
      ∃ out, divLoop p divisor (finv p (popTerm divisor).1) (popTerm divisor).2 fuel
        (q, inter) = some out := by
  intro fuel
  induction fuel with
  | zero => intro q inter _ h; omega
  | succ fuel ih =>
    intro q inter hic hflt
    by_cases hg : polyDegree divisor ≤ polyDegree inter
    · obtain ⟨hc2, hd2⟩ := divStep_spec p hp divisor hdiv he q inter hic hg
      obtain ⟨out, hout⟩ := ih
        (divStep p divisor (finv p (popTerm divisor).1) (popTerm divisor).2 (q, inter)).1
        (divStep p divisor (finv p (popTerm divisor).1) (popTerm divisor).2 (q, inter)).2
        hc2 (by omega)
      refine ⟨out, ?_⟩
      simp only [divLoop, if_pos hg]
      exact hout
    · exact ⟨(q, inter), by simp only [divLoop, if_neg hg]⟩

/-- Claim C6 (amended): polynomial long division does terminate for every
divisor of degree at least one, given canonical coefficient vectors over a
prime modulus: each loop iteration cancels the leading remainder
coefficient exactly, so the remainder degree strictly decreases until the
loop guard fails.  (For nonzero divisors of degree zero the loop never
terminates, see the counterexample.) -/
theorem poly_div_terminates (p : ℕ) (hp : p.Prime) (dividend divisor : List ℤ)
    (hdvd : ∀ x ∈ dividend, 0 ≤ x ∧ x < (p : ℤ))
    (hdiv : ∀ x ∈ divisor, 0 ≤ x ∧ x < (p : ℤ))
    (he : 1 ≤ polyDegree divisor) :
    ∃ qr, divT p (polyDegree dividend + 1) dividend divisor = some qr := by
  have hnz := polyIsZero_false_of_degree divisor he
  simp only [divT, hnz, Bool.false_eq_true, if_false]
  exact divLoop_some p hp divisor hdiv he (polyDegree dividend + 1) [] dividend hdvd
    (by omega)

/-- Witness for the amended division-termination theorem on the division
test vector of the source: x squared plus 2x minus 7 divided by x minus 2
over p = 101. -/
theorem poly_div_terminates_witness :
    Nat.Prime 101 ∧ 1 ≤ polyDegree [(99 : ℤ), 1] ∧
      ∃ qr, divT 101 (polyDegree [(94 : ℤ), 2, 1] + 1) [94, 2, 1] [99, 1] = some qr :=
  ⟨by decide, by decide, poly_div_terminates 101 (by decide) [94, 2, 1] [99, 1]
    (by decide) (by decide) (by decide)⟩

/-! ## FRI folding (src/fri.rs, Fri::commit) -/

/-- Helper for rewriting the non-reducible ZMod inverse at concrete values:
an element with an explicit two-sided companion is inverted to it. -/
lemma zmod_inv_eq_of_mul {n : ℕ} (a b : ZMod n) (h : a * b = 1) : a⁻¹ = b := by
  have hu : IsUnit a := isUnit_of_mul_eq_one a b h
  have h1 := ZMod.inv_mul_of_unit a hu
  calc a⁻¹ = a⁻¹ * (a * b) := by rw [h, mul_one]
    _ = a⁻¹ * a * b := by ring
    _ = b := by rw [h1, one_mul]

/-- Modelled from the spec: Field::domain is called by src/fri.rs but its
body is not among the source files; per the spec (section 4.1) it returns
the n successive powers of the base starting from exponent zero, computed
by sequential multiplication, each step reduced by Field::mul. -/
def fdomainAux (p : ℕ) (base : ℤ) : ℕ → ℤ → List ℤ
  | 0, _ => []
  | n + 1, cur => cur :: fdomainAux p base n (fmul p cur base)

/-- The power domain of a base element, of the given length. -/
def fdomain (p : ℕ) (base : ℤ) (n : ℕ) : List ℤ := fdomainAux p base n 1

lemma fdomainAux_getD (p : ℕ) (base : ℤ) :
    ∀ (n j : ℕ) (cur : ℤ), j < n →
      ((fdomainAux p base n cur).getD j 0 : ZMod p) = (cur : ZMod p) * (base : ZMod p) ^ j
  | 0, j, _, hj => by omega
  | n + 1, 0, cur, _ => by simp [fdomainAux]
  | n + 1, j + 1, cur, hj => by
      show ((fdomainAux p base n (fmul p cur base)).getD j 0 : ZMod p) = _
      rw [fdomainAux_getD p base n j (fmul p cur base) (by omega)]
      rw [fmul_cast]
      ring

lemma fdomain_getD (p : ℕ) (base : ℤ) (n j : ℕ) (hj : j < n) :
    ((fdomain p base n).getD j 0 : ZMod p) = (base : ZMod p) ^ j := by
  rw [fdomain, fdomainAux_getD p base n j 1 hj]
  push_cast
  ring

/-- Modelled from the spec: Field::ladd, lazy unreduced addition used inside
the fold of Fri::commit (the method body is not among the source files);
the enclosing Field::mul reduces the result. -/
def ladd (a b : ℤ) : ℤ := a + b

/-- Modelled from the spec: Field::lmul, lazy unreduced multiplication used
inside the fold of Fri::commit. -/
def lmul (a b : ℤ) : ℤ := a * b

/-- Modelled from the spec: Field::lsub, lazy unreduced subtraction used
inside the fold of Fri::commit. -/
def lsub (a b : ℤ) : ℤ := a - b

/-- One folding round of Fri::commit, parameterized by the round index i and
the sampled challenge alp.  The source precomputes the inverse offset
domain (of length two to the round count) and the inverse omega domain (of
length domain_len) once, and maintains exp = two to the round index; the
round maps index k of the halved codeword to
two_inv * ((1 + alp * invOffsetDomain[2^i] * invDomain[2^i * k]) * c[k]
+ (1 - alp * invOffsetDomain[2^i] * invDomain[2^i * k]) * c[half + k]). -/
def foldCodeword (p : ℕ) (offset omg : ℤ) (rc N i : ℕ) (alp : ℤ) (c : List ℤ) :
    List ℤ :=
  let twoInv := finv p 2
  let invOffsetDomain := fdomain p (finv p offset) (2 ^ rc)
  let invDomain := fdomain p (finv p omg) N
  let nextLen := c.length / 2
  (List.range nextLen).map (fun index =>
    let ival := c.getD index 0
    let invOmega := fmul p (invOffsetDomain.getD (2 ^ i) 0)
      (invDomain.getD (2 ^ i * index) 0)
    let a := fmul p ival (ladd 1 (lmul alp invOmega))
    let b := fmul p (lsub 1 (lmul alp invOmega)) (c.getD (c.length / 2 + index) 0)
    fmul p twoInv (ladd a b))

lemma getD_map_range (f : ℕ → ℤ) (n k : ℕ) (hk : k < n) :
    ((List.range n).map f).getD k 0 = f k := by
  rw [List.getD_eq_getElem _ _ (by simpa using hk)]
  rw [List.getElem_map, List.getElem_range]

/-- Claim C3 (amended): in folding round i the prover combines the halves of
the codeword with the inverse of offset to the power 2^i (the offset of the
i-times squared coset), not the inverse of offset itself: for every index k
of the folded codeword,
c2[k] = 2⁻¹ ((1 + alp (offset^(2^i) omega^(2^i k))⁻¹) c[k]
+ (1 − alp (offset^(2^i) omega^(2^i k))⁻¹) c[half + k]) in the field. -/
theorem fri_fold_formula (p : ℕ) (hp : p.Prime) (hp2 : 2 < p) (offset omg alp : ℤ)
    (ho : ¬ (p : ℤ) ∣ offset) (hw : ¬ (p : ℤ) ∣ omg)
    (rc N i k : ℕ) (hi : i < rc) (c : List ℤ)
    (hk : k < c.length / 2) (hN : c.length * 2 ^ i = N) :
    ((foldCodeword p offset omg rc N i alp c).getD k 0 : ZMod p) =
      (2 : ZMod p)⁻¹ *
        ((1 + (alp : ZMod p) *
            ((offset : ZMod p) ^ 2 ^ i * (omg : ZMod p) ^ (2 ^ i * k))⁻¹) *
            ((c.getD k 0 : ℤ) : ZMod p) +
          (1 - (alp : ZMod p) *
            ((offset : ZMod p) ^ 2 ^ i * (omg : ZMod p) ^ (2 ^ i * k))⁻¹) *
            ((c.getD (c.length / 2 + k) 0 : ℤ) : ZMod p)) := by
  haveI : Fact p.Prime := ⟨hp⟩
  have h2 : ¬ (p : ℤ) ∣ 2 := by
    intro hdd
    have := Int.le_of_dvd (by norm_num) hdd
    omega
  have hclen : 0 < c.length := by
    by_contra hcon
    have : c.length = 0 := by omega
    rw [this] at hk
    omega
  have hklen : k < c.length := by omega
  have hround : 2 ^ i < 2 ^ rc := Nat.pow_lt_pow_right (by norm_num) hi
  have hbound : 2 ^ i * k < N := by
    have hpow : 0 < 2 ^ i := Nat.pos_pow_of_pos i (by norm_num)
    have h1 : 2 ^ i * k < 2 ^ i * c.length := (Nat.mul_lt_mul_left hpow).mpr hklen
    have hN2 : 2 ^ i * c.length = N := by rw [mul_comm]; exact hN
    omega
  simp only [foldCodeword]
  rw [getD_map_range _ _ k hk]
  simp only [ladd, lmul, lsub]
  push_cast [fmul_cast]
  rw [fdomain_getD p (finv p offset) (2 ^ rc) (2 ^ i) hround]
  rw [fdomain_getD p (finv p omg) N (2 ^ i * k) hbound]
  rw [finv_cast p hp 2 h2, finv_cast p hp offset ho, finv_cast p hp omg hw]
  rw [Int.cast_two]
  rw [mul_inv, ← inv_pow, ← inv_pow]
  ring

/-- Claim C3 (counterexample): over p = 97 with offset 5 and omega 8 (an
element of multiplicative order 16), at folding round i = 1 with challenge
alpha = 1 and codeword (1, 0, ..., 0) of length 8, the code produces
2⁻¹ (1 + 25⁻¹) = 82 at index 0, while the claimed formula with the inverse
of offset to the first power gives 2⁻¹ (1 + 5⁻¹) = 20. -/
theorem fri_fold_offset_power_cex :
    ((foldCodeword 97 5 8 3 16 1 1 [1, 0, 0, 0, 0, 0, 0, 0]).getD 0 0 : ZMod 97) ≠
      (2 : ZMod 97)⁻¹ * ((1 + 1 * ((5 * 8 ^ (2 ^ 1 * 0) : ZMod 97))⁻¹) * 1 +
        (1 - 1 * ((5 * 8 ^ (2 ^ 1 * 0) : ZMod 97))⁻¹) * 0) := by
  rw [zmod_inv_eq_of_mul (2 : ZMod 97) 49 (by decide)]
  rw [zmod_inv_eq_of_mul (5 * 8 ^ (2 ^ 1 * 0) : ZMod 97) 39 (by decide)]
  decide

/-- Witness for the amended folding theorem at the concrete parameters of
the counterexample. -/
theorem fri_fold_formula_witness :
    Nat.Prime 97 ∧
      ((foldCodeword 97 5 8 3 16 1 1 [1, 0, 0, 0, 0, 0, 0, 0]).getD 0 0 : ZMod 97) =
        (2 : ZMod 97)⁻¹ *
          ((1 + ((1 : ℤ) : ZMod 97) *
              (((5 : ℤ) : ZMod 97) ^ 2 ^ 1 * ((8 : ℤ) : ZMod 97) ^ (2 ^ 1 * 0))⁻¹) *
              ((List.getD [(1 : ℤ), 0, 0, 0, 0, 0, 0, 0] 0 0 : ℤ) : ZMod 97) +
            (1 - ((1 : ℤ) : ZMod 97) *
              (((5 : ℤ) : ZMod 97) ^ 2 ^ 1 * ((8 : ℤ) : ZMod 97) ^ (2 ^ 1 * 0))⁻¹) *
              ((List.getD [(1 : ℤ), 0, 0, 0, 0, 0, 0, 0]
                (List.length [(1 : ℤ), 0, 0, 0, 0, 0, 0, 0] / 2 + 0) 0 : ℤ) : ZMod 97)) :=
  ⟨by decide, fri_fold_formula 97 (by decide) (by decide) 5 8 1 (by decide) (by decide)
    3 16 1 0 (by decide) [1, 0, 0, 0, 0, 0, 0, 0] (by decide) (by decide)⟩
